import Mathlib

/-!
Verification of the connection-pooling backend of `apnsclient`
(`apnsclient/backends/__init__.py`): `BaseBackend.get_cached_connection`,
`BaseBackend.release`, `BaseBackend.outdate` and the `BaseConnection`
timestamp logic.

Modelling choices:
* Time is an integer; every operation that reads the wall clock
  (`datetime.datetime.now()`) receives that reading as an explicit `now`
  argument.
* A connection is a record of its identity and the mutable fields the pool
  code touches (`last_use`, the closed flag); mutation is modelled by
  returning the updated record.  Two connection values with the same `id`
  field model the same Python object.
* The `_connections` dict, keyed by `(address, certificate)`, is an
  association list mirroring Python dict semantics: lookup by key, in-place
  update of an existing key, insertion of a fresh key at the end.
* Each pool operation additionally returns the list of connections on which
  it invoked `close()` during the call, so statements of the form "closes
  the connection" / "discards it without closing" are expressible.
* `get_new_connection` raises `NotImplementedError` in this file of the
  source (backends implement it); an acquire therefore takes the outcome of
  that call as an `Except` argument and returns it verbatim on cache miss,
  which models "any failure raised by creation propagates".
-/

namespace Apns

/-- Failure of `get_new_connection` (the spec's `ConnectFailure`). -/
inductive IOErr where
  | connectFailure
deriving DecidableEq, Repr

/-- State of one `BaseConnection`: identity of the Python object, the
`address`/`certificate` attributes, `last_use`, and the closed flag. -/
structure Conn where
  id : Nat
  address : Nat
  certificate : Nat
  lastUse : Int
  closed : Bool
deriving DecidableEq, Repr

/-- `BaseConnection.touch`: set `last_use` to the current time. -/
def touch (now : Int) (con : Conn) : Conn := { con with lastUse := now }

/-- `BaseConnection.is_outdated`: `(datetime.datetime.now() - self.last_use) > delta`. -/
def is_outdated (now : Int) (con : Conn) (delta : Int) : Bool :=
  decide (now - con.lastUse > delta)

/-- The pool key `(address, certificate)`. -/
abbrev Key := Nat × Nat

/-- The key under which `release` files a connection. -/
def Conn.key (con : Conn) : Key := (con.address, con.certificate)

/-- `BaseBackend` state: `pool_size` (`none` = unlimited) and the
`_connections` dict as an insertion-ordered association list. -/
structure Backend where
  pool_size : Option Nat
  connections : List (Key × List Conn)
deriving DecidableEq, Repr

/-- Dict lookup `self._connections.get(key)`. -/
def alookup : List (Key × List Conn) → Key → Option (List Conn)
  | [], _ => none
  | (k', v) :: rest, k => if k' = k then some v else alookup rest k

/-- Dict write `self._connections[key] = v`: replace the value of an
existing key in place, or insert the new key at the end. -/
def aset : List (Key × List Conn) → Key → List Conn → List (Key × List Conn)
  | [], k, v => [(k, v)]
  | (k', v') :: rest, k, v =>
    if k' = k then (k, v) :: rest else (k', v') :: aset rest k v

/-- The `while pool: con = pool.pop(0) ...` loop of
`get_cached_connection`: pop entries from the front, skipping closed ones,
until a live connection is found (returned touched, together with the list
that remains) or the list is exhausted. -/
def popLive (now : Int) : List Conn → Option Conn × List Conn
  | [] => (none, [])
  | con :: rest =>
    if con.closed then popLive now rest else (some (touch now con), rest)

/-- `BaseBackend.get_cached_connection`.  `nc` is the outcome of the
`get_new_connection` call performed on cache miss.  Returns the result, the
new backend state, and the connections closed during the call (none: the
loop discards closed connections without calling `close`). -/
def get_cached_connection (now : Int) (b : Backend) (address certificate : Nat)
    (nc : Except IOErr Conn) : Except IOErr Conn × Backend × List Conn :=
  match alookup b.connections (address, certificate) with
  | none => (nc, b, [])
  | some pool =>
    match popLive now pool with
    | (some con, rest) =>
      (Except.ok con,
       { b with connections := aset b.connections (address, certificate) rest }, [])
    | (none, rest) =>
      (nc,
       { b with connections := aset b.connections (address, certificate) rest }, [])

/-- The guard `self.pool_size is None or self.pool_size > 0`. -/
def poolEnabled : Option Nat → Bool
  | none => true
  | some n => decide (0 < n)

/-- The guard `self.pool_size is None or len(pool) < self.pool_size`. -/
def hasRoom : Option Nat → Nat → Bool
  | none, _ => true
  | some n, len => decide (len < n)

/-- `BaseBackend.release`.  Returns the new backend state, the final state
of the released connection (touched if stored, closed if surplus), and the
connections closed during the call. -/
def release (now : Int) (b : Backend) (con : Conn) : Backend × Conn × List Conn :=
  if con.closed then (b, con, [])
  else if poolEnabled b.pool_size then
    let pool := (alookup b.connections con.key).getD []
    if hasRoom b.pool_size pool.length then
      let con' := touch now con
      ({ b with connections := aset b.connections con.key (pool ++ [con']) }, con', [])
    else
      let con' := { con with closed := true }
      (b, con', [con'])
  else
    let con' := { con with closed := true }
    (b, con', [con'])

/-- The inner loop of `BaseBackend.outdate` over one key's pool: keep
non-closed, non-outdated connections (in order); close outdated non-closed
ones; drop already-closed ones silently.  Returns (new_pool, closed). -/
def sweepPool (now delta : Int) : List Conn → List Conn × List Conn
  | [] => ([], [])
  | con :: rest =>
    let r := sweepPool now delta rest
    if con.closed then r
    else if is_outdated now con delta then (r.1, { con with closed := true } :: r.2)
    else (con :: r.1, r.2)

/-- The outer loop of `BaseBackend.outdate` over the dict items: rebind a
key to its new pool when that is non-empty, delete the key otherwise. -/
def outdateList (now delta : Int) :
    List (Key × List Conn) → List (Key × List Conn) × List Conn
  | [] => ([], [])
  | (k, pool) :: rest =>
    let s := sweepPool now delta pool
    let r := outdateList now delta rest
    (if s.1.isEmpty then r.1 else (k, s.1) :: r.1, s.2 ++ r.2)

/-- `BaseBackend.outdate`.  Returns the new backend state and the
connections closed during the sweep.  `BaseBackend.__del__` is
`outdate now 0`. -/
def outdate (now delta : Int) (b : Backend) : Backend × List Conn :=
  ((⟨b.pool_size, (outdateList now delta b.connections).1⟩ : Backend),
   (outdateList now delta b.connections).2)

/-- One pool operation, for reasoning about operation sequences. -/
inductive Op where
  | acquire (now : Int) (address certificate : Nat) (nc : Except IOErr Conn)
  | release (now : Int) (con : Conn)
  | outdate (now delta : Int)

/-- State transition of one operation (effects projected away). -/
def applyOp (b : Backend) : Op → Backend
  | Op.acquire now a c nc => (get_cached_connection now b a c nc).2.1
  | Op.release now con => (release now b con).1
  | Op.outdate now delta => (outdate now delta b).1

/-- Run a sequence of operations. -/
def run (b : Backend) (ops : List Op) : Backend := ops.foldl applyOp b

/-- Number of non-closed connections in a list. -/
def liveCount (l : List Conn) : Nat := (l.filter (fun c => !c.closed)).length

/-- `k` successive `get_cached_connection` calls on the same key; the value
is the result of the last one. -/
def acquireN (now : Int) (a c : Nat) (nc : Except IOErr Conn) :
    Nat → Backend → Except IOErr Conn × Backend × List Conn
  | 0, b => get_cached_connection now b a c nc
  | k + 1, b => acquireN now a c nc k (get_cached_connection now b a c nc).2.1

/-- List-level counterpart of `acquireN` on a single bucket. -/
def listAcquireN (now : Int) : Nat → List Conn → Option Conn × List Conn
  | 0, l => popLive now l
  | k + 1, l => listAcquireN now k (popLive now l).2

/-! ### Basic lemmas about the association list -/

theorem alookup_aset_self (m : List (Key × List Conn)) (k : Key) (v : List Conn) :
    alookup (aset m k v) k = some v := by
  induction m with
  | nil => simp [aset, alookup]
  | cons hd tl ih =>
    obtain ⟨k', v'⟩ := hd
    by_cases h : k' = k
    · simp [aset, alookup, h]
    · simp [aset, alookup, h, ih]

theorem alookup_aset_ne (m : List (Key × List Conn)) (k k' : Key) (v : List Conn)
    (h : k' ≠ k) : alookup (aset m k v) k' = alookup m k' := by
  induction m with
  | nil => simp [aset, alookup, Ne.symm h]
  | cons hd tl ih =>
    obtain ⟨k₀, v₀⟩ := hd
    by_cases h₀ : k₀ = k
    · subst h₀
      simp [aset, alookup, Ne.symm h]
    · simp only [aset, if_neg h₀, alookup]
      by_cases h₁ : k₀ = k'
      · simp [h₁]
      · simp [h₁, ih]

theorem mem_aset (m : List (Key × List Conn)) (k : Key) (v : List Conn)
    (x : Key × List Conn) (hx : x ∈ aset m k v) : x = (k, v) ∨ x ∈ m := by
  induction m with
  | nil => simpa [aset] using hx
  | cons hd tl ih =>
    obtain ⟨k', v'⟩ := hd
    by_cases h : k' = k
    · simp only [aset, if_pos h, List.mem_cons] at hx
      rcases hx with h1 | h2
      · exact Or.inl h1
      · exact Or.inr (List.mem_cons_of_mem _ h2)
    · simp only [aset, if_neg h, List.mem_cons] at hx
      rcases hx with h1 | h2
      · exact Or.inr (by simp [h1])
      · rcases ih h2 with h3 | h4
        · exact Or.inl h3
        · exact Or.inr (List.mem_cons_of_mem _ h4)

theorem alookup_mem (m : List (Key × List Conn)) (k : Key) (v : List Conn)
    (h : alookup m k = some v) : (k, v) ∈ m := by
  induction m with
  | nil => simp [alookup] at h
  | cons hd tl ih =>
    obtain ⟨k', v'⟩ := hd
    by_cases hk : k' = k
    · subst hk
      rw [alookup, if_pos rfl] at h
      obtain rfl := Option.some.inj h
      exact List.mem_cons_self _ _
    · simp only [alookup, if_neg hk] at h
      exact List.mem_cons_of_mem _ (ih h)

/-! ### Lemmas about the acquire loop -/

theorem popLive_all_closed (now : Int) (l : List Conn)
    (h : ∀ x ∈ l, x.closed = true) : popLive now l = (none, []) := by
  induction l with
  | nil => rfl
  | cons hd tl ih =>
    have hhd : hd.closed = true := h hd (List.mem_cons_self hd tl)
    simp only [popLive, hhd, if_true]
    exact ih fun x hx => h x (List.mem_cons_of_mem _ hx)

theorem popLive_first_live (now : Int) (pre : List Conn) (con : Conn)
    (rest : List Conn) (hpre : ∀ x ∈ pre, x.closed = true)
    (hcon : con.closed = false) :
    popLive now (pre ++ con :: rest) = (some (touch now con), rest) := by
  induction pre with
  | nil => simp [popLive, hcon]
  | cons hd tl ih =>
    have hhd : hd.closed = true := hpre hd (List.mem_cons_self hd tl)
    simp only [List.cons_append, popLive, hhd, if_true]
    exact ih fun x hx => hpre x (List.mem_cons_of_mem _ hx)

theorem popLive_length (now : Int) (l : List Conn) :
    (popLive now l).2.length ≤ l.length := by
  induction l with
  | nil => simp [popLive]
  | cons hd tl ih =>
    by_cases h : hd.closed
    · simp only [popLive, h, if_true, List.length_cons]
      exact Nat.le_trans ih (Nat.le_succ _)
    · simp [popLive, h]

/-! ### Lemmas about the outdating sweep -/

theorem sweepPool_fst (now delta : Int) (l : List Conn) :
    (sweepPool now delta l).1
      = l.filter (fun c => !c.closed && !(is_outdated now c delta)) := by
  induction l with
  | nil => rfl
  | cons hd tl ih =>
    simp only [sweepPool, List.filter_cons]
    by_cases h : hd.closed = true
    · simp [h, ih]
    · by_cases h2 : is_outdated now hd delta = true
      · simp [h, h2, ih]
      · simp [h, h2, ih]

theorem sweepPool_snd (now delta : Int) (l : List Conn) :
    (sweepPool now delta l).2
      = (l.filter (fun c => !c.closed && is_outdated now c delta)).map
          (fun c => { c with closed := true }) := by
  induction l with
  | nil => rfl
  | cons hd tl ih =>
    simp only [sweepPool, List.filter_cons]
    by_cases h : hd.closed = true
    · simp [h, ih]
    · by_cases h2 : is_outdated now hd delta = true
      · simp [h, h2, ih]
      · simp [h, h2, ih]

theorem outdateList_fst (now delta : Int) (m : List (Key × List Conn)) :
    (outdateList now delta m).1
      = m.filterMap (fun kv =>
          if (kv.2.filter (fun c => !c.closed && !(is_outdated now c delta))).isEmpty
          then none
          else some (kv.1, kv.2.filter (fun c => !c.closed && !(is_outdated now c delta)))) := by
  induction m with
  | nil => rfl
  | cons hd tl ih =>
    obtain ⟨k, pool⟩ := hd
    simp only [outdateList, List.filterMap_cons, sweepPool_fst, ih]
    by_cases h : (pool.filter (fun c => !c.closed && !(is_outdated now c delta))).isEmpty = true
    · simp [h]
    · simp [h]

theorem outdateList_snd (now delta : Int) (m : List (Key × List Conn)) :
    (outdateList now delta m).2
      = m.foldr (fun kv acc =>
          (kv.2.filter (fun c => !c.closed && is_outdated now c delta)).map
            (fun c => { c with closed := true }) ++ acc) [] := by
  induction m with
  | nil => rfl
  | cons hd tl ih =>
    obtain ⟨k, pool⟩ := hd
    simp only [outdateList, List.foldr_cons, sweepPool_snd, ih]

theorem mem_outdateList_snd (now delta : Int) (m : List (Key × List Conn))
    (kv : Key × List Conn) (hkv : kv ∈ m) (c : Conn) (hc : c ∈ kv.2)
    (hcl : c.closed = false) (ho : is_outdated now c delta = true) :
    { c with closed := true } ∈ (outdateList now delta m).2 := by
  induction m with
  | nil => simp at hkv
  | cons hd tl ih =>
    simp only [outdateList]
    rcases List.mem_cons.mp hkv with h1 | h2
    · subst h1
      refine List.mem_append_left _ ?_
      rw [sweepPool_snd]
      exact List.mem_map_of_mem _ (List.mem_filter.mpr ⟨hc, by simp [hcl, ho]⟩)
    · exact List.mem_append_right _ (ih h2)

/-! ### Concrete connections and pool states used in counterexamples and
witnesses -/

/-- A closed connection whose last use is the current instant. -/
def conStale : Conn := ⟨2, 0, 0, 0, true⟩

/-- A live connection whose last use is the current instant. -/
def conLiveNow : Conn := ⟨1, 0, 0, 0, false⟩

/-- A live connection last used one time unit in the past. -/
def conOld : Conn := ⟨3, 0, 0, -1, false⟩

/-- A live connection idling in the bucket of key `(1, 2)`. -/
def conIdle : Conn := ⟨4, 1, 2, 0, false⟩

/-- A live connection for key `(1, 2)` held by a caller. -/
def conHeld : Conn := ⟨5, 1, 2, 0, false⟩

/-! ### Claim theorems -/

/-- C1, counterexample: `outdate` does not remove exactly the connections
with (now − last-use) > d.  On a pool holding one already-closed connection
whose idle time 0 is not greater than d = 5, `outdate` removes the
connection (and its key) anyway, while the claim requires it to be left in
place. -/
theorem outdate_removes_unexpired_closed_cex :
    is_outdated 0 conStale 5 = false ∧
    (outdate 0 5 ⟨some 5, [((0, 0), [conStale])]⟩).1.connections = [] := by
  decide

/-- C1, amended: `outdate d` removes from every key's idle list exactly the
connections that are already closed or whose (now − last-use) > d; it
invokes `close` exactly on the not-yet-closed ones among those (in order);
every other idle connection is kept, in relative order, with its last-use
timestamp unchanged (the kept lists are literal `filter`s of the old ones);
keys whose list becomes empty are removed from the mapping, and `pool_size`
is untouched. -/
theorem outdate_characterization (now delta : Int) (b : Backend) :
    (outdate now delta b).1.connections
      = b.connections.filterMap (fun kv =>
          if (kv.2.filter (fun c => !c.closed && !(is_outdated now c delta))).isEmpty
          then none
          else some (kv.1, kv.2.filter (fun c => !c.closed && !(is_outdated now c delta)))) ∧
    (outdate now delta b).2
      = b.connections.foldr (fun kv acc =>
          (kv.2.filter (fun c => !c.closed && is_outdated now c delta)).map
            (fun c => { c with closed := true }) ++ acc) [] ∧
    (outdate now delta b).1.pool_size = b.pool_size :=
  ⟨outdateList_fst now delta b.connections, outdateList_snd now delta b.connections, rfl⟩

/-- C6, counterexample: `outdate` with zero duration does not close every
idle connection unconditionally.  A live connection whose last use equals
the current instant has idle time 0, which is not strictly greater than 0,
so it is kept, nothing is closed, and the key set is not empty. -/
theorem outdate_zero_flushes_cex :
    conLiveNow.closed = false ∧
    (outdate 0 0 ⟨some 5, [((0, 0), [conLiveNow])]⟩).2 = [] ∧
    (outdate 0 0 ⟨some 5, [((0, 0), [conLiveNow])]⟩).1.connections
      = [((0, 0), [conLiveNow])] := by
  decide

/-- C6, amended: when every idle connection is already closed or was last
used strictly before the current instant, `outdate` with zero duration (as
`__del__` invokes it) closes every not-yet-closed idle connection and
leaves the pool's key set empty, with no residual empty lists. -/
theorem outdate_zero_flushes (now : Int) (b : Backend)
    (h : ∀ kv ∈ b.connections, ∀ c ∈ kv.2, c.closed = true ∨ c.lastUse < now) :
    (outdate now 0 b).1.connections = [] ∧
    ∀ kv ∈ b.connections, ∀ c ∈ kv.2, c.closed = false →
      { c with closed := true } ∈ (outdate now 0 b).2 := by
  constructor
  · show (outdateList now 0 b.connections).1 = []
    rw [outdateList_fst]
    rw [List.filterMap_eq_nil_iff]
    intro kv hkv
    have hfil : kv.2.filter (fun c => !c.closed && !(is_outdated now c 0)) = [] := by
      rw [List.filter_eq_nil_iff]
      intro c hc
      rcases h kv hkv c hc with hcl | hlt
      · simp [hcl]
      · have : is_outdated now c 0 = true := by
          simp only [is_outdated, decide_eq_true_eq]
          omega
        simp [this]
    simp [hfil]
  · intro kv hkv c hc hcl
    have hlt : c.lastUse < now := by
      rcases h kv hkv c hc with h1 | h2
      · rw [hcl] at h1; cases h1
      · exact h2
    have ho : is_outdated now c 0 = true := by
      simp only [is_outdated, decide_eq_true_eq]
      omega
    exact mem_outdateList_snd now 0 b.connections kv hkv c hc hcl ho

/-- Witness for the amended C6 theorem at a concrete input: one bucket with
one live connection last used strictly in the past. -/
theorem outdate_zero_flushes_witness :
    (outdate 0 0 ⟨some 5, [((0, 0), [conOld])]⟩).1.connections = [] ∧
    { conOld with closed := true } ∈ (outdate 0 0 ⟨some 5, [((0, 0), [conOld])]⟩).2 := by
  have h := outdate_zero_flushes 0 ⟨some 5, [((0, 0), [conOld])]⟩ (by decide)
  exact ⟨h.1, h.2 ((0, 0), [conOld]) (by decide) conOld (by decide) rfl⟩

/-- C8: `is_outdated maxIdle` is a pure predicate, true iff
(now − last-use) is strictly greater than maxIdle; being a plain function
of the connection value, it modifies nothing. -/
theorem is_outdated_spec (now : Int) (con : Conn) (delta : Int) :
    is_outdated now con delta = true ↔ now - con.lastUse > delta := by
  simp [is_outdated]

/-- C9: releasing a connection that reports closed does nothing: the pool
mapping is unchanged, the connection is returned unmodified (no `touch`)
and `close` is not invoked on anything. -/
theorem release_closed_noop (now : Int) (b : Backend) (con : Conn)
    (h : con.closed = true) : release now b con = (b, con, []) := by
  simp [release, h]

/-- Witness for C9 at a concrete input. -/
theorem release_closed_noop_witness :
    release 0 ⟨some 5, []⟩ conStale = (⟨some 5, []⟩, conStale, []) :=
  release_closed_noop 0 ⟨some 5, []⟩ conStale rfl

/-- C5: releasing a non-closed connection whose bucket already holds
`pool_size` or more connections closes that connection, never appends it,
and leaves the pool mapping unchanged. -/
theorem release_full_closes (now : Int) (b : Backend) (con : Conn) (n : Nat)
    (hps : b.pool_size = some n) (hc : con.closed = false)
    (hlen : n ≤ ((alookup b.connections con.key).getD []).length) :
    release now b con = (b, { con with closed := true }, [{ con with closed := true }]) := by
  cases n with
  | zero => simp [release, hc, hps, poolEnabled]
  | succ m =>
    have hroom : hasRoom (some (m + 1))
        ((alookup b.connections con.key).getD []).length = false := by
      simp only [hasRoom, decide_eq_false_iff_not]
      omega
    simp [release, hc, hps, poolEnabled, hroom]

/-- Witness for C5 at a concrete input: `pool_size = 1`, the bucket of key
`(1, 2)` already holds one idle connection, and a second live connection
for that key is released. -/
theorem release_full_closes_witness :
    release 0 ⟨some 1, [((1, 2), [conIdle])]⟩ conHeld
      = (⟨some 1, [((1, 2), [conIdle])]⟩, { conHeld with closed := true },
         [{ conHeld with closed := true }]) :=
  release_full_closes 0 ⟨some 1, [((1, 2), [conIdle])]⟩ conHeld 1 rfl rfl (by decide)

/-! ### Frame lemmas for `get_cached_connection` and `release` -/

theorem get_cached_absent (now : Int) (b : Backend) (a c : Nat)
    (nc : Except IOErr Conn) (h : alookup b.connections (a, c) = none) :
    get_cached_connection now b a c nc = (nc, b, []) := by
  simp [get_cached_connection, h]

theorem get_cached_hit (now : Int) (b : Backend) (a c : Nat)
    (nc : Except IOErr Conn) (pre : List Conn) (con : Conn) (rest : List Conn)
    (hlook : alookup b.connections (a, c) = some (pre ++ con :: rest))
    (hpre : ∀ x ∈ pre, x.closed = true) (hcon : con.closed = false) :
    get_cached_connection now b a c nc
      = (Except.ok (touch now con),
         { b with connections := aset b.connections (a, c) rest }, []) := by
  simp [get_cached_connection, hlook, popLive_first_live now pre con rest hpre hcon]

theorem get_cached_exhaust (now : Int) (b : Backend) (a c : Nat)
    (nc : Except IOErr Conn) (l : List Conn)
    (hlook : alookup b.connections (a, c) = some l)
    (hall : ∀ x ∈ l, x.closed = true) :
    get_cached_connection now b a c nc
      = (nc, { b with connections := aset b.connections (a, c) [] }, []) := by
  simp [get_cached_connection, hlook, popLive_all_closed now l hall]

theorem get_cached_state (now : Int) (b : Backend) (a c : Nat)
    (nc : Except IOErr Conn) (l : List Conn)
    (hlook : alookup b.connections (a, c) = some l) :
    (get_cached_connection now b a c nc).2.1.connections
      = aset b.connections (a, c) (popLive now l).2 := by
  cases hpop : popLive now l with
  | mk o rest =>
    cases o with
    | none => simp [get_cached_connection, hlook, hpop]
    | some con => simp [get_cached_connection, hlook, hpop]

theorem get_cached_pool_size (now : Int) (b : Backend) (a c : Nat)
    (nc : Except IOErr Conn) :
    (get_cached_connection now b a c nc).2.1.pool_size = b.pool_size := by
  cases hlook : alookup b.connections (a, c) with
  | none => simp [get_cached_connection, hlook]
  | some l =>
    cases hpop : popLive now l with
    | mk o rest =>
      cases o with
      | none => simp [get_cached_connection, hlook, hpop]
      | some con => simp [get_cached_connection, hlook, hpop]

theorem release_pool_size (now : Int) (b : Backend) (con : Conn) :
    (release now b con).1.pool_size = b.pool_size := by
  by_cases h : con.closed = true
  · simp [release, h]
  · by_cases h2 : poolEnabled b.pool_size = true
    · by_cases h3 :
        hasRoom b.pool_size ((alookup b.connections con.key).getD []).length = true
      · simp [release, h, h2, h3]
      · simp [release, h, h2, h3]
    · simp [release, h, h2]

theorem alookup_aset_isSome (m : List (Key × List Conn)) (k : Key)
    (v : List Conn) (key' : Key) (h : (alookup m key').isSome = true) :
    (alookup (aset m k v) key').isSome = true := by
  by_cases hk : key' = k
  · subst hk
    rw [alookup_aset_self]
    rfl
  · rw [alookup_aset_ne m k key' v hk]
    exact h

/-- C3: acquire pops entries from the front of the key's idle list,
discarding closed connections without ever invoking `close` (the
closed-during-call list of an acquire is always empty), until the first
live connection, which is touched and returned, the remainder staying in
the bucket; if the bucket is absent or holds only closed connections, the
result is exactly the outcome of `get_new_connection`, so a creation
failure propagates to the caller. -/
theorem acquire_scans_front (now : Int) (b : Backend) (a c : Nat)
    (nc : Except IOErr Conn) :
    (∀ pre con rest, alookup b.connections (a, c) = some (pre ++ con :: rest) →
      (∀ x ∈ pre, x.closed = true) → con.closed = false →
      get_cached_connection now b a c nc
        = (Except.ok (touch now con),
           { b with connections := aset b.connections (a, c) rest }, [])) ∧
    ((∀ x ∈ (alookup b.connections (a, c)).getD [], x.closed = true) →
      (get_cached_connection now b a c nc).1 = nc ∧
      (get_cached_connection now b a c nc).2.2 = []) := by
  constructor
  · intro pre con rest hlook hpre hcon
    exact get_cached_hit now b a c nc pre con rest hlook hpre hcon
  · intro hall
    cases hlook : alookup b.connections (a, c) with
    | none => simp [get_cached_connection, hlook]
    | some l =>
      rw [hlook] at hall
      simp only [Option.getD_some] at hall
      rw [get_cached_exhaust now b a c nc l hlook hall]
      exact ⟨rfl, rfl⟩

/-- Witness for C3 at a concrete input: the bucket of key `(0, 0)` holds a
closed connection in front of a live one; acquire discards the closed one,
returns the live one touched, and leaves the emptied remainder. -/
theorem acquire_scans_front_witness :
    get_cached_connection 7 ⟨some 5, [((0, 0), [conStale, conLiveNow])]⟩ 0 0
        (Except.error IOErr.connectFailure)
      = (Except.ok (touch 7 conLiveNow), ⟨some 5, [((0, 0), [])]⟩, []) :=
  (acquire_scans_front 7 ⟨some 5, [((0, 0), [conStale, conLiveNow])]⟩ 0 0
      (Except.error IOErr.connectFailure)).1
    [conStale] conLiveNow [] rfl (by decide) rfl

/-- C10: when acquire drains a key's idle list — returning its sole live
connection or discarding closed entries until exhaustion — the key stays in
the mapping bound to the empty list; neither acquire nor release ever
removes a key from the mapping (only `outdate` does). -/
theorem acquire_keeps_empty_bucket (now : Int) (b : Backend) (a c : Nat)
    (nc : Except IOErr Conn) :
    (∀ l, alookup b.connections (a, c) = some l →
      ((∀ x ∈ l, x.closed = true) →
        alookup (get_cached_connection now b a c nc).2.1.connections (a, c) = some []) ∧
      (∀ pre con, l = pre ++ [con] → (∀ x ∈ pre, x.closed = true) →
        con.closed = false →
        alookup (get_cached_connection now b a c nc).2.1.connections (a, c) = some [])) ∧
    (∀ key', (alookup b.connections key').isSome = true →
      (alookup (get_cached_connection now b a c nc).2.1.connections key').isSome = true) ∧
    (∀ con key', (alookup b.connections key').isSome = true →
      (alookup (release now b con).1.connections key').isSome = true) := by
  refine ⟨?_, ?_, ?_⟩
  · intro l hlook
    constructor
    · intro hall
      rw [get_cached_exhaust now b a c nc l hlook hall]
      exact alookup_aset_self b.connections (a, c) []
    · intro pre con hl hpre hcon
      subst hl
      rw [get_cached_hit now b a c nc pre con [] hlook hpre hcon]
      exact alookup_aset_self b.connections (a, c) []
  · intro key' hsome
    cases hlook : alookup b.connections (a, c) with
    | none => rw [get_cached_absent now b a c nc hlook]; exact hsome
    | some l =>
      rw [get_cached_state now b a c nc l hlook]
      exact alookup_aset_isSome b.connections (a, c) _ key' hsome
  · intro con key' hsome
    by_cases h : con.closed = true
    · rw [release_closed_noop now b con h]
      exact hsome
    · by_cases h2 : poolEnabled b.pool_size = true
      · by_cases h3 :
          hasRoom b.pool_size ((alookup b.connections con.key).getD []).length = true
        · have : (release now b con).1.connections
              = aset b.connections con.key
                  (((alookup b.connections con.key).getD []) ++ [touch now con]) := by
            simp [release, h, h2, h3]
          rw [this]
          exact alookup_aset_isSome b.connections con.key _ key' hsome
        · have : (release now b con).1.connections = b.connections := by
            simp [release, h, h2, h3]
          rw [this]
          exact hsome
      · have : (release now b con).1.connections = b.connections := by
          simp [release, h, h2]
        rw [this]
        exact hsome

/-- Witness for C10 at a concrete input: a bucket holding a single closed
connection is drained by acquire and the key stays bound to `[]`. -/
theorem acquire_keeps_empty_bucket_witness :
    alookup (get_cached_connection 7 ⟨some 5, [((0, 0), [conStale])]⟩ 0 0
        (Except.error IOErr.connectFailure)).2.1.connections (0, 0) = some [] :=
  ((acquire_keeps_empty_bucket 7 ⟨some 5, [((0, 0), [conStale])]⟩ 0 0
      (Except.error IOErr.connectFailure)).1 [conStale] rfl).1 (by decide)

/-! ### The disabled pool (`pool_size = 0`) -/

theorem applyOp_zero_pool (op : Op) :
    applyOp ⟨some 0, []⟩ op = ⟨some 0, []⟩ := by
  cases op with
  | acquire now a c nc => simp [applyOp, get_cached_connection, alookup]
  | release now con =>
    by_cases h : con.closed = true
    · simp [applyOp, release, h]
    · simp [applyOp, release, h, poolEnabled]
  | outdate now delta => rfl

/-- C7: with `pool_size = 0`, the backend state is a fixed point of every
operation sequence (in particular the idle mapping stays empty); on the
empty mapping every acquire returns exactly the outcome of
`get_new_connection`; and releasing a non-closed connection closes it
immediately and stores nothing. -/
theorem zero_pool_disables_caching :
    (∀ ops, run ⟨some 0, []⟩ ops = ⟨some 0, []⟩) ∧
    (∀ now b a c nc, b.pool_size = some 0 → b.connections = [] →
      get_cached_connection now b a c nc = (nc, b, [])) ∧
    (∀ now b con, b.pool_size = some 0 → con.closed = false →
      release now b con
        = (b, { con with closed := true }, [{ con with closed := true }])) := by
  refine ⟨?_, ?_, ?_⟩
  · intro ops
    induction ops with
    | nil => rfl
    | cons op tl ih =>
      show run (applyOp ⟨some 0, []⟩ op) tl = ⟨some 0, []⟩
      rw [applyOp_zero_pool op]
      exact ih
  · intro now b a c nc hps hc
    have : alookup b.connections (a, c) = none := by rw [hc]; rfl
    exact get_cached_absent now b a c nc this
  · intro now b con hps hcl
    simp [release, hcl, hps, poolEnabled]

/-- Witness for C7 at concrete inputs. -/
theorem zero_pool_disables_caching_witness :
    run ⟨some 0, []⟩ [Op.release 0 conLiveNow, Op.acquire 1 0 0 (Except.ok conOld)]
        = ⟨some 0, []⟩ ∧
    get_cached_connection 0 ⟨some 0, []⟩ 0 0 (Except.ok conOld)
        = (Except.ok conOld, ⟨some 0, []⟩, []) ∧
    release 0 ⟨some 0, []⟩ conLiveNow
        = (⟨some 0, []⟩, { conLiveNow with closed := true },
           [{ conLiveNow with closed := true }]) :=
  ⟨zero_pool_disables_caching.1 _,
   zero_pool_disables_caching.2.1 0 ⟨some 0, []⟩ 0 0 (Except.ok conOld) rfl rfl,
   zero_pool_disables_caching.2.2 0 ⟨some 0, []⟩ conLiveNow rfl rfl⟩

/-! ### The per-key size bound -/

theorem applyOp_bounded (n : Nat) (b : Backend) (op : Op)
    (hps : b.pool_size = some n)
    (hb : ∀ kv ∈ b.connections, kv.2.length ≤ n) :
    (applyOp b op).pool_size = some n ∧
    ∀ kv ∈ (applyOp b op).connections, kv.2.length ≤ n := by
  cases op with
  | acquire now a c nc =>
    refine ⟨by rw [applyOp, get_cached_pool_size, hps], ?_⟩
    intro kv hkv
    cases hlook : alookup b.connections (a, c) with
    | none =>
      rw [applyOp, get_cached_absent now b a c nc hlook] at hkv
      exact hb kv hkv
    | some l =>
      rw [applyOp, get_cached_state now b a c nc l hlook] at hkv
      rcases mem_aset _ _ _ kv hkv with h1 | h2
      · subst h1
        exact Nat.le_trans (popLive_length now l)
          (hb ((a, c), l) (alookup_mem _ _ _ hlook))
      · exact hb kv h2
  | release now con =>
    refine ⟨by rw [applyOp, release_pool_size, hps], ?_⟩
    intro kv hkv
    by_cases h : con.closed = true
    · rw [applyOp, release_closed_noop now b con h] at hkv
      exact hb kv hkv
    · by_cases h2 : poolEnabled b.pool_size = true
      · by_cases h3 :
          hasRoom b.pool_size ((alookup b.connections con.key).getD []).length = true
        · have hrel : (release now b con).1.connections
              = aset b.connections con.key
                  (((alookup b.connections con.key).getD []) ++ [touch now con]) := by
            simp [release, h, h2, h3]
          rw [applyOp, hrel] at hkv
          rcases mem_aset _ _ _ kv hkv with h1 | h4
          · subst h1
            have hlt : ((alookup b.connections con.key).getD []).length < n := by
              rw [hps] at h3
              simpa [hasRoom] using h3
            simp only [List.length_append, List.length_singleton]
            omega
          · exact hb kv h4
        · have hrel : (release now b con).1.connections = b.connections := by
            simp [release, h, h2, h3]
          rw [applyOp, hrel] at hkv
          exact hb kv hkv
      · have hrel : (release now b con).1.connections = b.connections := by
          simp [release, h, h2]
        rw [applyOp, hrel] at hkv
        exact hb kv hkv
  | outdate now delta =>
    refine ⟨hps, ?_⟩
    intro kv hkv
    have : (applyOp b (Op.outdate now delta)).connections
        = (outdateList now delta b.connections).1 := rfl
    rw [this, outdateList_fst] at hkv
    rcases List.mem_filterMap.mp hkv with ⟨kv0, hkv0, hf⟩
    by_cases hemp :
        (kv0.2.filter (fun c => !c.closed && !(is_outdated now c delta))).isEmpty = true
    · rw [if_pos hemp] at hf
      cases hf
    · rw [if_neg hemp] at hf
      obtain rfl := Option.some.inj hf
      exact Nat.le_trans (List.length_filter_le _ _) (hb kv0 hkv0)

theorem run_bounded (n : Nat) (ops : List Op) :
    ∀ b, b.pool_size = some n → (∀ kv ∈ b.connections, kv.2.length ≤ n) →
    ∀ kv ∈ (run b ops).connections, kv.2.length ≤ n := by
  induction ops with
  | nil => intro b _ hb; exact hb
  | cons op tl ih =>
    intro b hps hb
    have h := applyOp_bounded n b op hps hb
    exact ih (applyOp b op) h.1 h.2

theorem run_release_replicate (k : Nat) :
    ∀ j, run ⟨none, [((0, 0), List.replicate j conLiveNow)]⟩
        (List.replicate k (Op.release 0 conLiveNow))
      = ⟨none, [((0, 0), List.replicate (j + k) conLiveNow)]⟩ := by
  induction k with
  | zero => intro j; rfl
  | succ k ih =>
    intro j
    have hstep : applyOp ⟨none, [((0, 0), List.replicate j conLiveNow)]⟩
        (Op.release 0 conLiveNow)
        = ⟨none, [((0, 0), List.replicate (j + 1) conLiveNow)]⟩ := by
      simp [applyOp, release, poolEnabled, hasRoom, Conn.key, conLiveNow, alookup,
        aset, touch, List.replicate_succ']
    rw [List.replicate_succ]
    show run (applyOp _ _) _ = _
    rw [hstep, ih (j + 1)]
    have : j + 1 + k = j + (k + 1) := by omega
    rw [this]

/-- C2: starting from the empty pool, for every operation sequence under a
numeric `pool_size = n` every stored idle list has length at most `n`;
under the unbounded sentinel (`pool_size = None`) no bound applies: for
every `m` some operation sequence produces an idle list longer than `m`. -/
theorem pool_size_bound :
    (∀ n ops key l,
      alookup (run ⟨some n, []⟩ ops).connections key = some l → l.length ≤ n) ∧
    (∀ m : Nat, ∃ ops l,
      alookup (run ⟨none, []⟩ ops).connections (0, 0) = some l ∧ m < l.length) := by
  constructor
  · intro n ops key l hl
    exact run_bounded n ops ⟨some n, []⟩ rfl (by simp) (key, l) (alookup_mem _ _ _ hl)
  · intro m
    refine ⟨List.replicate (m + 1) (Op.release 0 conLiveNow),
            List.replicate (m + 1) conLiveNow, ?_, by simp⟩
    have hfirst : applyOp ⟨none, []⟩ (Op.release 0 conLiveNow)
        = ⟨none, [((0, 0), List.replicate 1 conLiveNow)]⟩ := by
      simp [applyOp, release, poolEnabled, hasRoom, Conn.key, conLiveNow, alookup,
        aset, touch]
    rw [List.replicate_succ]
    show alookup (run (applyOp _ _) _).connections (0, 0) = _
    rw [hfirst, run_release_replicate m 1]
    have : 1 + m = m + 1 := by omega
    rw [this]
    rfl

/-- Witness for C2 at a concrete input: one release under `pool_size = 1`
stores one connection, within the bound. -/
theorem pool_size_bound_witness :
    [conLiveNow].length ≤ 1 :=
  pool_size_bound.1 1 [Op.release 0 conLiveNow] (0, 0) [conLiveNow] (by decide)

/-! ### Reuse after release -/

theorem listAcquireN_cons_closed (now : Int) (k : Nat) (p : Conn) (t : List Conn)
    (h : p.closed = true) :
    listAcquireN now k (p :: t) = listAcquireN now k t := by
  cases k with
  | zero => simp [listAcquireN, popLive, h]
  | succ k => simp [listAcquireN, popLive, h]

theorem listAcquireN_cons_live (now : Int) (k : Nat) (p : Conn) (t : List Conn)
    (h : p.closed = false) :
    listAcquireN now (k + 1) (p :: t) = listAcquireN now k t := by
  simp [listAcquireN, popLive, h]

theorem listAcquireN_reaches_last (now : Int) (pre : List Conn) (con : Conn)
    (hcon : con.closed = false) :
    (listAcquireN now (liveCount pre) (pre ++ [con])).1 = some (touch now con) := by
  induction pre with
  | nil => simp [liveCount, listAcquireN, popLive, hcon]
  | cons p pre ih =>
    by_cases hp : p.closed = true
    · have hl : liveCount (p :: pre) = liveCount pre := by simp [liveCount, hp]
      rw [hl, List.cons_append, listAcquireN_cons_closed now _ p _ hp]
      exact ih
    · have hp' : p.closed = false := by revert hp; cases p.closed <;> simp
      have hl : liveCount (p :: pre) = liveCount pre + 1 := by simp [liveCount, hp']
      rw [hl, List.cons_append, listAcquireN_cons_live now _ p _ hp']
      exact ih

theorem acquireN_bridge (now : Int) (a c : Nat) (nc : Except IOErr Conn)
    (k : Nat) : ∀ (b : Backend) (l : List Conn),
    alookup b.connections (a, c) = some l →
    (acquireN now a c nc k b).1
      = match (listAcquireN now k l).1 with
        | some con => Except.ok con
        | none => nc := by
  induction k with
  | zero =>
    intro b l hlook
    show (get_cached_connection now b a c nc).1 = _
    cases hpop : popLive now l with
    | mk o rest =>
      cases o with
      | none => simp [get_cached_connection, hlook, hpop, listAcquireN]
      | some con => simp [get_cached_connection, hlook, hpop, listAcquireN]
  | succ k ih =>
    intro b l hlook
    show (acquireN now a c nc k (get_cached_connection now b a c nc).2.1).1 = _
    have hlook2 : alookup (get_cached_connection now b a c nc).2.1.connections (a, c)
        = some (popLive now l).2 := by
      rw [get_cached_state now b a c nc l hlook]
      exact alookup_aset_self _ _ _
    rw [ih _ _ hlook2]
    rfl

theorem poolEnabled_of_hasRoom (ps : Option Nat) (len : Nat)
    (h : hasRoom ps len = true) : poolEnabled ps = true := by
  cases ps with
  | none => rfl
  | some n =>
    simp only [hasRoom, decide_eq_true_eq] at h
    simp only [poolEnabled, decide_eq_true_eq]
    omega

/-- C4: releasing a non-closed connection into a bucket with room stores it
touched at the end of that bucket, and a subsequent acquire on the same
endpoint key — the one reached after the older live bucket entries have
been handed out — returns that very connection (the same record, so the
same object), touched again by the acquire. -/
theorem release_then_reacquire (now now2 : Int) (b : Backend) (con : Conn)
    (hcl : con.closed = false)
    (hroom : hasRoom b.pool_size
        ((alookup b.connections con.key).getD []).length = true) :
    (release now b con).2.1 = touch now con ∧
    alookup (release now b con).1.connections con.key
      = some (((alookup b.connections con.key).getD []) ++ [touch now con]) ∧
    ∀ nc, (acquireN now2 con.address con.certificate nc
        (liveCount ((alookup b.connections con.key).getD []))
        (release now b con).1).1
      = Except.ok (touch now2 con) := by
  have hen := poolEnabled_of_hasRoom _ _ hroom
  have hrel1 : (release now b con).1.connections = aset b.connections con.key (((alookup b.connections con.key).getD []) ++ [touch now con]) := by
    simp [release, hcl, hen, hroom]
  have hrel2 : (release now b con).2.1 = touch now con := by
    simp [release, hcl, hen, hroom]
  refine ⟨hrel2, by rw [hrel1]; exact alookup_aset_self _ _ _, ?_⟩
  intro nc
  have hlook : alookup (release now b con).1.connections (con.address, con.certificate)
      = some ((((alookup b.connections con.key).getD [])) ++ [touch now con]) := by
    rw [hrel1]
    exact alookup_aset_self _ _ _
  rw [acquireN_bridge now2 con.address con.certificate nc _ _ _ hlook]
  rw [listAcquireN_reaches_last now2 _ (touch now con) (by simp [touch, hcl])]
  simp [touch]

/-- Witness for C4 at a concrete input: release into the empty pool under
`pool_size = 1`, then the very next acquire returns the same connection. -/
theorem release_then_reacquire_witness :
    (release 0 ⟨some 1, []⟩ conHeld).2.1 = touch 0 conHeld ∧
    alookup (release 0 ⟨some 1, []⟩ conHeld).1.connections conHeld.key
      = some [touch 0 conHeld] ∧
    (acquireN 3 conHeld.address conHeld.certificate
        (Except.error IOErr.connectFailure) 0 (release 0 ⟨some 1, []⟩ conHeld).1).1
      = Except.ok (touch 3 conHeld) := by
  have h := release_then_reacquire 0 3 ⟨some 1, []⟩ conHeld rfl (by decide)
  exact ⟨h.1, h.2.1, h.2.2 (Except.error IOErr.connectFailure)⟩
